import Mathlib

/-!
Verification of the bounded-buffer queue in `src/buffer.cpp`.

The C++ class `BoundedBuffer<T>` stores a `std::queue<std::optional<T>>`
(`q_`) and a capacity (`cap_`).  `push` waits until `q_.size() < cap_`
and then appends its argument to the tail; `pop` waits until the queue is
nonempty, takes the front element, removes it, and returns it.  The
end-of-stream marker is `std::nullopt`, modelled here as `none`; a payload
`t` is `some t`.  The free function `producer_done` calls
`push(std::nullopt)`.

The shallow embedding represents the buffer state as a Lean structure and
each blocking operation as a guarded step: an operation is *enabled*
exactly when the condition its `condition_variable::wait` blocks on holds,
and executing an enabled operation performs the queue mutation the C++
body performs under the lock.  Interleavings of concurrent calls are the
sequences of such steps, replayed by `runOps`.
-/

/-- State of `BoundedBuffer<T>` from `src/buffer.cpp`: the queue `q_`
(front of the `std::queue` = head of the list, pushes append at the tail)
and the capacity `cap_`.  A slot holds `some t` for a payload `t` and
`none` for the end-of-stream marker (`std::nullopt`). -/
structure BoundedBuffer (T : Type) where
  q_ : List (Option T)
  cap_ : Nat

namespace BoundedBuffer

/-- The constructor `BoundedBuffer(size_t cap) : cap_(cap) {}`: it stores
the capacity unchecked and starts with an empty queue. -/
def construct (T : Type) (cap : Nat) : BoundedBuffer T :=
  { q_ := [], cap_ := cap }

/-- `size_t size() { return q_.size(); }`. -/
def size (b : BoundedBuffer T) : Nat :=
  b.q_.length

/-- The condition `push` blocks on: `q_.size() < cap_`. -/
def pushEnabled (b : BoundedBuffer T) : Prop :=
  b.size < b.cap_

instance (b : BoundedBuffer T) : Decidable b.pushEnabled :=
  inferInstanceAs (Decidable (b.size < b.cap_))

/-- The condition `pop` blocks on: `!q_.empty()`. -/
def popEnabled (b : BoundedBuffer T) : Prop :=
  b.q_ ≠ []

instance (b : BoundedBuffer T) : Decidable b.popEnabled := by
  unfold BoundedBuffer.popEnabled
  cases b.q_ with
  | nil => exact isFalse (by simp)
  | cons v tl => exact isTrue (by simp)

/-- Body of `push` once the wait condition holds: `q_.push(data)` appends
`data` at the tail of the queue.  Nothing else changes and nothing is
returned. -/
def push (b : BoundedBuffer T) (data : Option T) : BoundedBuffer T :=
  { b with q_ := b.q_ ++ [data] }

/-- Body of `pop` once the wait condition holds:
`auto data = q_.front(); q_.pop(); ... return data;`.  The first component
is the returned front element (`none` only if the queue was empty, a state
`pop` never runs in), the second the buffer afterwards. -/
def pop (b : BoundedBuffer T) : Option (Option T) × BoundedBuffer T :=
  (b.q_.head?, { b with q_ := b.q_.tail })

end BoundedBuffer

/-- `producer_done` from `src/buffer.cpp`: `buf->push(std::nullopt)`,
i.e. push of the end-of-stream marker. -/
def producer_done (b : BoundedBuffer T) : BoundedBuffer T :=
  b.push none

/-- An operation attempted on the buffer: a push of a slot value, or a
pop. -/
inductive Op (T : Type) where
  | push (data : Option T)
  | pop
deriving DecidableEq

/-- The slot values pushed by a sequence of operations, in order. -/
def pushedOf : List (Op T) → List (Option T)
  | [] => []
  | Op.push d :: rest => d :: pushedOf rest
  | Op.pop :: rest => pushedOf rest

/-- Number of pops in a sequence of operations. -/
def countPop : List (Op T) → Nat
  | [] => 0
  | Op.push _ :: rest => countPop rest
  | Op.pop :: rest => 1 + countPop rest

/-- Replay a sequence of operations on the buffer.  Each operation runs
only when the condition its C++ counterpart blocks on holds (a blocked
call has not completed, so a schedule in which it would have to complete
is not a run).  Returns the final buffer and the values returned by the
pops, in order, or `none` if some operation in the sequence is not
enabled when its turn comes. -/
def runOps : BoundedBuffer T → List (Op T) → Option (BoundedBuffer T × List (Option T))
  | b, [] => some (b, [])
  | b, Op.push d :: rest =>
      if b.size < b.cap_ then runOps (b.push d) rest else none
  | b, Op.pop :: rest =>
      match b.q_ with
      | [] => none
      | v :: tl =>
          match runOps { b with q_ := tl } rest with
          | none => none
          | some (b', outs) => some (b', v :: outs)

/-- The operations attempted strictly before the `(k+1)`-th push of a
sequence (all of the sequence if it has at most `k` pushes). -/
def opsBeforePush : Nat → List (Op T) → List (Op T)
  | _, [] => []
  | k, Op.pop :: rest => Op.pop :: opsBeforePush k rest
  | 0, Op.push _ :: _ => []
  | k + 1, Op.push d :: rest => Op.push d :: opsBeforePush k rest

/-- C3: `push`, when enabled (`q_.size() < cap_`, the condition it blocks
on), appends its argument at the tail of the queue, increments the
occupancy by exactly one, and leaves the capacity unchanged. -/
theorem push_spec (b : BoundedBuffer T) (d : Option T) (h : b.pushEnabled) :
    (b.push d).q_ = b.q_ ++ [d] ∧ (b.push d).size = b.size + 1 ∧
      (b.push d).cap_ = b.cap_ := by
  refine ⟨rfl, ?_, rfl⟩
  simp [BoundedBuffer.push, BoundedBuffer.size]

/-- Witness for C3: pushing `5` onto an enabled buffer of capacity `2`
holding one element. -/
theorem push_spec_witness :
    (BoundedBuffer.mk [some 3] 2 : BoundedBuffer Nat).pushEnabled ∧
      ((BoundedBuffer.mk [some 3] 2 : BoundedBuffer Nat).push (some 5)).q_ =
          [some 3] ++ [some 5] ∧
        ((BoundedBuffer.mk [some 3] 2 : BoundedBuffer Nat).push (some 5)).size =
            (BoundedBuffer.mk [some 3] 2 : BoundedBuffer Nat).size + 1 ∧
          ((BoundedBuffer.mk [some 3] 2 : BoundedBuffer Nat).push (some 5)).cap_ =
            (BoundedBuffer.mk [some 3] 2 : BoundedBuffer Nat).cap_ :=
  ⟨by decide, push_spec (BoundedBuffer.mk [some 3] 2) (some 5) (by decide)⟩

/-- C4: `pop`, when enabled (queue nonempty, the condition it blocks on),
returns the head of the queue — a slot value, i.e. either a payload
`some t` or the end-of-stream marker `none` — removes it, and decrements
the occupancy by exactly one. -/
theorem pop_spec (b : BoundedBuffer T) (v : Option T) (tl : List (Option T))
    (h : b.q_ = v :: tl) :
    (b.pop).1 = some v ∧ (b.pop).2.q_ = tl ∧ (b.pop).2.cap_ = b.cap_ ∧
      (b.pop).2.size + 1 = b.size := by
  simp [BoundedBuffer.pop, BoundedBuffer.size, h]

/-- Witness for C4: popping a buffer holding the end-of-stream marker and
one payload returns the marker and leaves the payload. -/
theorem pop_spec_witness :
    (BoundedBuffer.mk [none, some 7] 4 : BoundedBuffer Nat).q_ = none :: [some 7] ∧
      ((BoundedBuffer.mk [none, some 7] 4 : BoundedBuffer Nat).pop).1 = some none ∧
        ((BoundedBuffer.mk [none, some 7] 4 : BoundedBuffer Nat).pop).2.q_ = [some 7] ∧
          ((BoundedBuffer.mk [none, some 7] 4 : BoundedBuffer Nat).pop).2.cap_ =
              (BoundedBuffer.mk [none, some 7] 4 : BoundedBuffer Nat).cap_ ∧
            ((BoundedBuffer.mk [none, some 7] 4 : BoundedBuffer Nat).pop).2.size + 1 =
              (BoundedBuffer.mk [none, some 7] 4 : BoundedBuffer Nat).size :=
  ⟨rfl, pop_spec (BoundedBuffer.mk [none, some 7] 4) none [some 7] rfl⟩

/-- C8: the constructor `BoundedBuffer(size_t cap) : cap_(cap) {}` does
not validate its argument: for every capacity, including `0`, it yields a
buffer whose capacity field is the argument and whose queue is empty —
`cap ≥ 1` is a caller precondition, not a checked condition. -/
theorem construct_unchecked (T : Type) :
    (∀ cap : Nat, (BoundedBuffer.construct T cap).cap_ = cap ∧
        (BoundedBuffer.construct T cap).q_ = []) ∧
      (BoundedBuffer.construct T 0).cap_ = 0 ∧
        (BoundedBuffer.construct T 0).size = 0 := by
  exact ⟨fun cap => ⟨rfl, rfl⟩, rfl, rfl⟩

/-- C10: frame property.  `push` changes the queue only by appending one
element at the tail — the first `size b` elements afterwards are exactly
the old queue, in order — and `pop` changes it only by removing the head,
leaving the tail as it was; neither changes the capacity field (`size`
reads the state without modifying anything, being a pure function here). -/
theorem frame_push_pop (b : BoundedBuffer T) (d : Option T) :
    (b.push d).q_.take b.size = b.q_ ∧ (b.push d).q_.drop b.size = [d] ∧
      (b.push d).cap_ = b.cap_ ∧
        (b.pop).2.q_ = b.q_.tail ∧ (b.pop).2.cap_ = b.cap_ := by
  refine ⟨?_, ?_, rfl, rfl, rfl⟩
  · simpa [BoundedBuffer.push, BoundedBuffer.size] using
      List.take_left b.q_ [d]
  · simpa [BoundedBuffer.push, BoundedBuffer.size] using
      List.drop_left b.q_ [d]

/-- `pushedOf` distributes over append. -/
theorem pushedOf_append (l₁ l₂ : List (Op T)) :
    pushedOf (l₁ ++ l₂) = pushedOf l₁ ++ pushedOf l₂ := by
  induction l₁ with
  | nil => simp [pushedOf]
  | cons op rest ih => cases op <;> simp [pushedOf, ih]

/-- `countPop` distributes over append. -/
theorem countPop_append (l₁ l₂ : List (Op T)) :
    countPop (l₁ ++ l₂) = countPop l₁ + countPop l₂ := by
  induction l₁ with
  | nil => simp [countPop]
  | cons op rest ih => cases op <;> simp [countPop, ih] <;> omega

/-- A block of pushes pushes exactly its payload list. -/
theorem pushedOf_map_push (xs : List (Option T)) :
    pushedOf (xs.map Op.push) = xs := by
  induction xs with
  | nil => simp [pushedOf]
  | cons x rest ih => simp [pushedOf, ih]

/-- A block of pops pushes nothing. -/
theorem pushedOf_replicate_pop (n : Nat) :
    pushedOf (List.replicate n (Op.pop : Op T)) = [] := by
  induction n with
  | zero => simp [pushedOf]
  | succ n ih => simp [List.replicate_succ, pushedOf, ih]

/-- A block of pushes contains no pop. -/
theorem countPop_map_push (xs : List (Option T)) :
    countPop (xs.map Op.push) = 0 := by
  induction xs with
  | nil => simp [countPop]
  | cons x rest ih => simp [countPop, ih]

/-- A block of `n` pops contains `n` pops. -/
theorem countPop_replicate_pop (n : Nat) :
    countPop (List.replicate n (Op.pop : Op T)) = n := by
  induction n with
  | zero => simp [countPop]
  | succ n ih => simp [List.replicate_succ, countPop, ih]; omega

/-- Conservation of the replay: the initial queue followed by the pushed
values equals the popped values followed by the final queue; the capacity
never changes; every attempted pop returns exactly one value. -/
theorem runOps_master (ops : List (Op T)) :
    ∀ (b b' : BoundedBuffer T) (outs : List (Option T)),
      runOps b ops = some (b', outs) →
      b.q_ ++ pushedOf ops = outs ++ b'.q_ ∧ b'.cap_ = b.cap_ ∧
        outs.length = countPop ops := by
  induction ops with
  | nil =>
    intro b b' outs h
    simp only [runOps, Option.some.injEq, Prod.mk.injEq] at h
    obtain ⟨hb, ho⟩ := h
    subst hb; subst ho
    simp [pushedOf, countPop]
  | cons op rest ih =>
    intro b b' outs h
    cases op with
    | push d =>
      simp only [runOps] at h
      split at h
      · obtain ⟨h1, h2, h3⟩ := ih (b.push d) b' outs h
        refine ⟨?_, by simpa [BoundedBuffer.push] using h2,
          by simpa [countPop] using h3⟩
        calc b.q_ ++ pushedOf (Op.push d :: rest)
            = (b.q_ ++ [d]) ++ pushedOf rest := by simp [pushedOf]
          _ = outs ++ b'.q_ := h1
      · exact absurd h (by simp)
    | pop =>
      obtain ⟨q, cap⟩ := b
      cases q with
      | nil => simp [runOps] at h
      | cons v tl =>
        simp only [runOps] at h
        cases hr : runOps (BoundedBuffer.mk tl cap) rest with
        | none => rw [hr] at h; simp at h
        | some p =>
          obtain ⟨b₁, outs₁⟩ := p
          rw [hr] at h
          simp only [Option.some.injEq, Prod.mk.injEq] at h
          obtain ⟨hb, ho⟩ := h
          subst hb; subst ho
          obtain ⟨h1, h2, h3⟩ := ih (BoundedBuffer.mk tl cap) _ _ hr
          refine ⟨?_, h2, ?_⟩
          · simpa [pushedOf] using congrArg (List.cons v) h1
          · simp only [countPop, List.length_cons, h3]
            omega

/-- A successful replay of `l₁ ++ l₂` splits into a successful replay of
`l₁` followed by one of `l₂`. -/
theorem runOps_split (l₁ l₂ : List (Op T)) :
    ∀ (b b₂ : BoundedBuffer T) (outs : List (Option T)),
      runOps b (l₁ ++ l₂) = some (b₂, outs) →
      ∃ b₁ o₁ o₂, runOps b l₁ = some (b₁, o₁) ∧ runOps b₁ l₂ = some (b₂, o₂) ∧
        outs = o₁ ++ o₂ := by
  induction l₁ with
  | nil =>
    intro b b₂ outs h
    exact ⟨b, [], outs, rfl, by simpa using h, by simp⟩
  | cons op rest ih =>
    intro b b₂ outs h
    cases op with
    | push d =>
      rw [List.cons_append] at h
      simp only [runOps] at h
      split at h
      case isTrue hc =>
        obtain ⟨b₁, o₁, o₂, h1, h2, h3⟩ := ih _ _ _ h
        refine ⟨b₁, o₁, o₂, ?_, h2, h3⟩
        simp only [runOps]
        rw [if_pos hc]
        exact h1
      case isFalse => exact absurd h (by simp)
    | pop =>
      obtain ⟨q, cap⟩ := b
      cases q with
      | nil => simp [runOps] at h
      | cons v tl =>
        rw [List.cons_append] at h
        simp only [runOps] at h
        cases hr : runOps (BoundedBuffer.mk tl cap) (rest ++ l₂) with
        | none => rw [hr] at h; simp at h
        | some p =>
          obtain ⟨b₂', outs'⟩ := p
          rw [hr] at h
          simp only [Option.some.injEq, Prod.mk.injEq] at h
          obtain ⟨hb, ho⟩ := h
          subst hb; subst ho
          obtain ⟨b₁, o₁, o₂, h1, h2, h3⟩ := ih _ _ _ hr
          refine ⟨b₁, v :: o₁, o₂, ?_, h2, by simp [h3]⟩
          simp only [runOps]
          rw [h1]

/-- Successful replays compose across append. -/
theorem runOps_comp (l₁ l₂ : List (Op T)) :
    ∀ (b b₁ b₂ : BoundedBuffer T) (o₁ o₂ : List (Option T)),
      runOps b l₁ = some (b₁, o₁) → runOps b₁ l₂ = some (b₂, o₂) →
      runOps b (l₁ ++ l₂) = some (b₂, o₁ ++ o₂) := by
  induction l₁ with
  | nil =>
    intro b b₁ b₂ o₁ o₂ h1 h2
    simp only [runOps, Option.some.injEq, Prod.mk.injEq] at h1
    obtain ⟨hb, ho⟩ := h1
    subst hb; subst ho
    simpa using h2
  | cons op rest ih =>
    intro b b₁ b₂ o₁ o₂ h1 h2
    cases op with
    | push d =>
      rw [List.cons_append]
      simp only [runOps] at h1 ⊢
      split at h1
      case isTrue hc =>
        rw [if_pos hc]
        exact ih _ _ _ _ _ h1 h2
      case isFalse => exact absurd h1 (by simp)
    | pop =>
      obtain ⟨q, cap⟩ := b
      cases q with
      | nil => simp [runOps] at h1
      | cons v tl =>
        rw [List.cons_append]
        simp only [runOps] at h1 ⊢
        cases hr : runOps (BoundedBuffer.mk tl cap) rest with
        | none => rw [hr] at h1; simp at h1
        | some p =>
          obtain ⟨b₁', outs'⟩ := p
          rw [hr] at h1
          simp only [Option.some.injEq, Prod.mk.injEq] at h1
          obtain ⟨hb, ho⟩ := h1
          subst hb; subst ho
          rw [ih _ _ _ _ _ hr h2]
          rfl

/-- The occupancy bound `size ≤ cap_` is preserved by every successful
replay. -/
theorem runOps_size_bounded (ops : List (Op T)) :
    ∀ (b b' : BoundedBuffer T) (outs : List (Option T)),
      runOps b ops = some (b', outs) → b.size ≤ b.cap_ → b'.size ≤ b'.cap_ := by
  induction ops with
  | nil =>
    intro b b' outs h hb
    simp only [runOps, Option.some.injEq, Prod.mk.injEq] at h
    obtain ⟨h1, h2⟩ := h
    subst h1
    exact hb
  | cons op rest ih =>
    intro b b' outs h hb
    cases op with
    | push d =>
      simp only [runOps] at h
      split at h
      case isTrue hc =>
        refine ih _ _ _ h ?_
        simp [BoundedBuffer.push, BoundedBuffer.size] at hc ⊢
        omega
      case isFalse => exact absurd h (by simp)
    | pop =>
      obtain ⟨q, cap⟩ := b
      cases q with
      | nil => simp [runOps] at h
      | cons v tl =>
        simp only [runOps] at h
        cases hr : runOps (BoundedBuffer.mk tl cap) rest with
        | none => rw [hr] at h; simp at h
        | some p =>
          obtain ⟨b₁, o₁⟩ := p
          rw [hr] at h
          simp only [Option.some.injEq, Prod.mk.injEq] at h
          obtain ⟨hb1, ho⟩ := h
          subst hb1
          refine ih _ _ _ hr ?_
          simp only [BoundedBuffer.size, List.length_cons] at hb ⊢
          omega

/-- An operation sequence with more than `k` pushes splits at its
`(k+1)`-th push, and the part before it pushes exactly the first `k`
pushed values. -/
theorem opsBeforePush_split (ops : List (Op T)) :
    ∀ k, k < (pushedOf ops).length →
      ∃ d rest, ops = opsBeforePush k ops ++ Op.push d :: rest ∧
        pushedOf (opsBeforePush k ops) = (pushedOf ops).take k := by
  induction ops with
  | nil => intro k hk; simp [pushedOf] at hk
  | cons op rest ih =>
    intro k hk
    cases op with
    | pop =>
      simp only [pushedOf] at hk ⊢
      obtain ⟨d, rest', h1, h2⟩ := ih k hk
      refine ⟨d, rest', ?_, ?_⟩
      · simp only [opsBeforePush, List.cons_append]
        exact congrArg (List.cons Op.pop) h1
      · simp only [opsBeforePush, pushedOf]
        exact h2
    | push d0 =>
      cases k with
      | zero => exact ⟨d0, rest, rfl, by simp [opsBeforePush, pushedOf]⟩
      | succ k =>
        simp only [pushedOf, List.length_cons, Nat.succ_lt_succ_iff] at hk
        obtain ⟨d, rest', h1, h2⟩ := ih k hk
        refine ⟨d, rest', ?_, ?_⟩
        · simp only [opsBeforePush, List.cons_append]
          exact congrArg (List.cons (Op.push d0)) h1
        · simp only [opsBeforePush, pushedOf, List.take_succ_cons]
          exact congrArg (List.cons d0) h2

/-- `N` pushes of the end-of-stream marker in a row succeed when they fit
under the capacity, appending `N` markers at the tail. -/
theorem runOps_push_replicate (N : Nat) :
    ∀ b : BoundedBuffer T, b.size + N ≤ b.cap_ →
      runOps b (List.replicate N (Op.push (none : Option T))) =
        some (BoundedBuffer.mk (b.q_ ++ List.replicate N none) b.cap_, []) := by
  induction N with
  | zero =>
    intro b hb
    obtain ⟨q, cap⟩ := b
    simp [runOps]
  | succ N ih =>
    intro b hb
    rw [List.replicate_succ]
    simp only [runOps]
    rw [if_pos (by simp [BoundedBuffer.size] at hb ⊢; omega)]
    rw [ih (b.push none)
      (by simp [BoundedBuffer.push, BoundedBuffer.size] at hb ⊢
          omega)]
    simp [BoundedBuffer.push, List.replicate_succ]

/-- Popping as many times as the queue holds drains it and returns its
contents in order. -/
theorem runOps_pop_all (cap : Nat) (l : List (Option T)) :
    runOps (BoundedBuffer.mk l cap) (List.replicate l.length Op.pop) =
      some (BoundedBuffer.mk [] cap, l) := by
  induction l with
  | nil => simp [runOps]
  | cons v tl ih =>
    rw [List.length_cons, List.replicate_succ]
    simp only [runOps]
    rw [ih]

/-- C1: for every buffer constructed with capacity `cap ≥ 1` and every
sequence of push and pop steps (push enabled only when occupancy is below
`cap`, pop only when the queue is nonempty), the occupancy of every
reachable state satisfies `0 ≤ occupancy ≤ cap`. -/
theorem capacity_invariant (cap : Nat) (ops : List (Op T))
    (b' : BoundedBuffer T) (outs : List (Option T)) (hcap : 1 ≤ cap)
    (h : runOps (BoundedBuffer.construct T cap) ops = some (b', outs)) :
    0 ≤ b'.size ∧ b'.size ≤ cap := by
  have hbound := runOps_size_bounded ops (BoundedBuffer.construct T cap) b' outs h
    (by simp [BoundedBuffer.construct, BoundedBuffer.size])
  have hcapeq := (runOps_master ops _ _ _ h).2.1
  simp only [BoundedBuffer.construct] at hcapeq
  exact ⟨Nat.zero_le _, by rw [← hcapeq]; exact hbound⟩

/-- Witness for C1: one push on a fresh capacity-1 buffer. -/
theorem capacity_invariant_witness :
    0 ≤ (BoundedBuffer.mk [some 0] 1 : BoundedBuffer Nat).size ∧
      (BoundedBuffer.mk [some 0] 1 : BoundedBuffer Nat).size ≤ 1 :=
  capacity_invariant 1 [Op.push (some 0)] (BoundedBuffer.mk [some 0] 1) []
    (Nat.le_refl 1) rfl

/-- C2: strict FIFO.  In every run the popped values are a prefix of the
pushed values in push order (so a value pushed earlier is popped no later
than one pushed after it), and in particular `n` pushes on an initially
empty buffer followed by `n` pops return exactly the pushed values in push
order. -/
theorem fifo_order (cap : Nat) (ops : List (Op T)) (b' : BoundedBuffer T)
    (outs xs : List (Option T))
    (h : runOps (BoundedBuffer.construct T cap) ops = some (b', outs)) :
    outs <+: pushedOf ops ∧
      (ops = xs.map Op.push ++ List.replicate xs.length Op.pop → outs = xs) := by
  obtain ⟨h1, h2, h3⟩ := runOps_master ops _ _ _ h
  simp only [BoundedBuffer.construct, List.nil_append] at h1
  constructor
  · exact ⟨b'.q_, h1.symm⟩
  · intro hops
    subst hops
    rw [pushedOf_append, pushedOf_map_push, pushedOf_replicate_pop,
      List.append_nil] at h1
    rw [countPop_append, countPop_map_push, countPop_replicate_pop] at h3
    have hlen : (outs ++ b'.q_).length = xs.length := by rw [← h1]
    simp only [List.length_append] at hlen
    have hq : b'.q_ = [] := List.length_eq_zero.mp (by omega)
    rw [hq, List.append_nil] at h1
    exact h1.symm

/-- Witness for C2: one push followed by one pop on a capacity-2 buffer. -/
theorem fifo_order_witness :
    ([some 1] : List (Option Nat)) <+: pushedOf [Op.push (some 1), Op.pop] ∧
      (([Op.push (some 1), Op.pop] : List (Op Nat)) =
          ([some 1] : List (Option Nat)).map Op.push ++
            List.replicate ([some 1] : List (Option Nat)).length Op.pop →
        ([some 1] : List (Option Nat)) = [some 1]) :=
  fifo_order 2 [Op.push (some 1), Op.pop] (BoundedBuffer.mk [] 2)
    [some 1] [some 1] rfl

/-- C6: conservation.  In every run that drains the buffer, the popped
values are exactly the pushed values: if `P × K` payloads were pushed then
`P × K` payloads are popped, and the number of end-of-stream markers
popped equals the number pushed — nothing is lost or duplicated. -/
theorem conservation (cap P K : Nat) (ops : List (Op T)) (b' : BoundedBuffer T)
    (outs : List (Option T))
    (h : runOps (BoundedBuffer.construct T cap) ops = some (b', outs))
    (hdrained : b'.q_ = [])
    (hP : (pushedOf ops).countP (fun v => v.isSome) = P * K) :
    outs.countP (fun v => v.isSome) = P * K ∧
      outs.countP (fun v => v.isNone) = (pushedOf ops).countP (fun v => v.isNone) := by
  obtain ⟨h1, h2, h3⟩ := runOps_master ops _ _ _ h
  simp only [BoundedBuffer.construct, List.nil_append] at h1
  rw [hdrained, List.append_nil] at h1
  rw [← h1]
  exact ⟨hP, rfl⟩

/-- Witness for C6: one producer (`P = 1`) pushing `K = 2` payloads and
one end-of-stream marker, all popped. -/
theorem conservation_witness :
    ([some 1, some 2, none] : List (Option Nat)).countP (fun v => v.isSome) =
        1 * 2 ∧
      ([some 1, some 2, none] : List (Option Nat)).countP (fun v => v.isNone) =
        (pushedOf [Op.push (some 1), Op.pop, Op.push (some 2), Op.pop,
          Op.push (none : Option Nat), Op.pop]).countP (fun v => v.isNone) :=
  conservation 2 1 2
    [Op.push (some 1), Op.pop, Op.push (some 2), Op.pop,
      Op.push (none : Option Nat), Op.pop]
    (BoundedBuffer.mk [] 2) [some 1, some 2, none] rfl rfl rfl

/-- C7: `producer_done` is exactly `push` applied to the end-of-stream
marker, so it runs under the same blocking/capacity rule as `push`; and
calling it `N` times (fitting under the capacity) enqueues exactly `N`
markers, each removed by a distinct pop. -/
theorem producer_done_spec (b : BoundedBuffer T) (N cap : Nat) (hN : N ≤ cap) :
    producer_done b = b.push none ∧
      runOps (BoundedBuffer.construct T cap)
          (List.replicate N (Op.push none) ++ List.replicate N Op.pop) =
        some (BoundedBuffer.construct T cap, List.replicate N none) := by
  refine ⟨rfl, ?_⟩
  have h1 := runOps_push_replicate N (BoundedBuffer.construct T cap)
    (by simp [BoundedBuffer.construct, BoundedBuffer.size]; omega)
  simp only [BoundedBuffer.construct, List.nil_append] at h1
  have h2 := runOps_pop_all cap (List.replicate N (none : Option T))
  rw [List.length_replicate] at h2
  have h3 := runOps_comp (List.replicate N (Op.push none))
    (List.replicate N Op.pop) _ _ _ _ _ h1 h2
  simpa [BoundedBuffer.construct] using h3

/-- Witness for C7: two `producer_done` calls on a capacity-3 buffer,
followed by two pops. -/
theorem producer_done_spec_witness :
    producer_done (BoundedBuffer.construct Nat 3) =
        (BoundedBuffer.construct Nat 3).push none ∧
      runOps (BoundedBuffer.construct Nat 3)
          (List.replicate 2 (Op.push none) ++ List.replicate 2 Op.pop) =
        some (BoundedBuffer.construct Nat 3, List.replicate 2 none) :=
  producer_done_spec (BoundedBuffer.construct Nat 3) 2 3 (by decide)

/-- C9: on a buffer constructed with capacity `0`, no push (and hence no
`producer_done`) and no pop can ever complete: the only successful replay
is the empty one, the buffer stays empty forever, and the wait condition
of `push` is false in that state. -/
theorem capacity_zero_never_pushes (ops : List (Op T))
    (p : BoundedBuffer T × List (Option T))
    (h : runOps (BoundedBuffer.construct T 0) ops = some p) :
    ops = [] ∧ p = (BoundedBuffer.construct T 0, []) ∧
      ¬ (BoundedBuffer.construct T 0).pushEnabled := by
  cases ops with
  | nil =>
    simp only [runOps, Option.some.injEq] at h
    refine ⟨rfl, h.symm, ?_⟩
    simp [BoundedBuffer.pushEnabled, BoundedBuffer.size, BoundedBuffer.construct]
  | cons op rest =>
    exfalso
    cases op with
    | push d => simp [runOps, BoundedBuffer.construct, BoundedBuffer.size] at h
    | pop => simp [runOps, BoundedBuffer.construct] at h

/-- Witness for C9: the empty replay on a capacity-0 buffer. -/
theorem capacity_zero_never_pushes_witness :
    ([] : List (Op Nat)) = [] ∧
      ((BoundedBuffer.construct Nat 0, []) :
          BoundedBuffer Nat × List (Option Nat)) =
        (BoundedBuffer.construct Nat 0, []) ∧
      ¬ (BoundedBuffer.construct Nat 0).pushEnabled :=
  capacity_zero_never_pushes [] (BoundedBuffer.construct Nat 0, []) rfl

/-- C5 counterexample: with capacity 2, the producer's second push (value
2) completes in a valid run that contains no pop at all, so it does not
have to wait for the first pop. -/
theorem second_push_before_any_pop :
    runOps (BoundedBuffer.construct Nat 2) [Op.push (some 1), Op.push (some 2)] =
        some (BoundedBuffer.mk [some 1, some 2] 2, []) ∧
      countPop ([Op.push (some 1), Op.push (some 2)] : List (Op Nat)) = 0 :=
  ⟨rfl, rfl⟩

/-- C5 (amended): with capacity 2, one producer pushing 1, 2, 3 and one
consumer popping three times, the pops return 1, 2, 3 in order with no
reordering and no loss; and the producer's *third* push (value 3) does not
complete before the first pop occurs: in every valid run at least one pop
precedes the third push. -/
theorem scenario_cap_two (ops : List (Op Nat)) (b' : BoundedBuffer Nat)
    (outs : List (Option Nat))
    (h : runOps (BoundedBuffer.construct Nat 2) ops = some (b', outs))
    (hpush : pushedOf ops = [some 1, some 2, some 3])
    (hpop : countPop ops = 3) :
    outs = [some 1, some 2, some 3] ∧ 1 ≤ countPop (opsBeforePush 2 ops) := by
  obtain ⟨h1, h2, h3⟩ := runOps_master ops _ _ _ h
  simp only [BoundedBuffer.construct, List.nil_append] at h1
  constructor
  · rw [hpush] at h1
    rw [hpop] at h3
    have hlen : (outs ++ b'.q_).length = 3 := by rw [← h1]; rfl
    simp only [List.length_append, h3] at hlen
    have hq : b'.q_ = [] := List.length_eq_zero.mp (by omega)
    rw [hq, List.append_nil] at h1
    exact h1.symm
  · have hk : 2 < (pushedOf ops).length := by rw [hpush]; decide
    obtain ⟨d, rest, hsplit, hbefore⟩ := opsBeforePush_split ops 2 hk
    rw [hsplit] at h
    obtain ⟨b₁, o₁, o₂, hrun1, hrun2, houts⟩ := runOps_split _ _ _ _ _ h
    have henabled : b₁.size < b₁.cap_ := by
      simp only [runOps] at hrun2
      by_contra hcon
      rw [if_neg hcon] at hrun2
      simp at hrun2
    obtain ⟨g1, g2, g3⟩ := runOps_master _ _ _ _ hrun1
    simp only [BoundedBuffer.construct, List.nil_append] at g1 g2
    rw [hbefore, hpush] at g1
    simp only [List.take_succ_cons, List.take_zero] at g1
    have hlen2 : o₁.length + b₁.q_.length = 2 := by
      have hc := congrArg List.length g1
      simpa [List.length_append] using hc.symm
    rw [← g3]
    have hsz : b₁.size < 2 := by rw [← g2]; exact henabled
    simp only [BoundedBuffer.size] at hsz
    omega

/-- Witness for C5 (amended): the schedule push 1, push 2, pop, push 3,
pop, pop. -/
theorem scenario_cap_two_witness :
    ([some 1, some 2, some 3] : List (Option Nat)) = [some 1, some 2, some 3] ∧
      1 ≤ countPop (opsBeforePush 2 [Op.push (some 1), Op.push (some 2), Op.pop,
        Op.push (some 3), Op.pop, Op.pop]) :=
  scenario_cap_two
    [Op.push (some 1), Op.push (some 2), Op.pop, Op.push (some 3), Op.pop, Op.pop]
    (BoundedBuffer.mk [] 2) [some 1, some 2, some 3] rfl rfl rfl
